import Mathlib

/-!
Verification of the noble-es256-sig repository: ES256 JWT signing and key
conversion. Bytes are embedded as `List Nat` (each element < 256, the
`Uint8Array` invariant), JavaScript strings as `List Char` and UTF-16 code
unit sequences as `List Nat`. Code delegated by the repository to external
libraries (`@noble/curves`, `@noble/hashes`, `@sd-jwt/utils`, the platform
`atob`) is modelled from the specification, as flagged on each definition.
-/

namespace ES256

/-! ## Byte-level helpers -/

/-- Big-endian interpretation of a byte list as a natural number. Embeds
`bytesToBigInt` from src/key.ts, which evaluates `BigInt("0x" + bytesToHex bytes)`. -/
def beNat : List Nat → Nat
| [] => 0
| b :: rest => b * 256 ^ rest.length + beNat rest

/-- Fixed-width big-endian byte encoding. Embeds noble's `numberToBytesBE`
together with the left-zero-padding performed by `bigIntTo32Bytes` in src/key.ts. -/
def toBytesBE : Nat → Nat → List Nat
| 0, _ => []
| l + 1, v => toBytesBE l (v / 256) ++ [v % 256]

theorem toBytesBE_length (len v : Nat) : (toBytesBE len v).length = len := by
  induction len generalizing v with
  | zero => rfl
  | succ l ih => simp [toBytesBE, ih]

theorem toBytesBE_lt (len v : Nat) : ∀ b ∈ toBytesBE len v, b < 256 := by
  induction len generalizing v with
  | zero => simp [toBytesBE]
  | succ l ih =>
    intro b hb
    simp only [toBytesBE, List.mem_append, List.mem_singleton] at hb
    rcases hb with h | h
    · exact ih _ _ h
    · omega

theorem beNat_append_singleton (bs : List Nat) (b : Nat) :
    beNat (bs ++ [b]) = beNat bs * 256 + b := by
  induction bs with
  | nil => simp [beNat]
  | cons x rest ih =>
    have hlen : (rest ++ [b]).length = rest.length + 1 := by simp
    simp only [List.cons_append, beNat, List.append_eq]
    rw [ih, hlen, pow_succ]
    ring

theorem beNat_toBytesBE (len v : Nat) (h : v < 256 ^ len) :
    beNat (toBytesBE len v) = v := by
  induction len generalizing v with
  | zero =>
    simp only [pow_zero] at h
    simp [toBytesBE, beNat]
    omega
  | succ l ih =>
    rw [toBytesBE, beNat_append_singleton, ih]
    · omega
    · rw [pow_succ] at h
      omega

theorem toBytesBE_beNat (bs : List Nat) (h : ∀ b ∈ bs, b < 256) :
    toBytesBE bs.length (beNat bs) = bs := by
  induction bs using List.reverseRecOn with
  | nil => rfl
  | append_singleton ys y ih =>
    have hy : y < 256 := h y (by simp)
    rw [beNat_append_singleton]
    have hlen : (ys ++ [y]).length = ys.length + 1 := by simp
    rw [hlen, toBytesBE]
    have h1 : (beNat ys * 256 + y) / 256 = beNat ys := by omega
    have h2 : (beNat ys * 256 + y) % 256 = y := by omega
    rw [h1, h2, ih fun b hb => h b (by simp [hb])]

theorem beNat_lt (bs : List Nat) (h : ∀ b ∈ bs, b < 256) :
    beNat bs < 256 ^ bs.length := by
  induction bs with
  | nil => simp [beNat]
  | cons b rest ih =>
    have hb : b < 256 := h b (by simp)
    have hr := ih fun x hx => h x (by simp [hx])
    simp only [beNat, List.length_cons, pow_succ]
    nlinarith [pow_pos (by norm_num : (0:ℕ) < 256) rest.length]

/-! ## Base64 / base64url codec -/

/-- Standard base64 alphabet, in index order. -/
def b64StdAlphabetStr : String := "ABCDEFGHIJKLMNOPQRSTUVWXYZabcdefghijklmnopqrstuvwxyz0123456789+/"

/-- Base64url alphabet, in index order. -/
def b64UrlAlphabetStr : String := "ABCDEFGHIJKLMNOPQRSTUVWXYZabcdefghijklmnopqrstuvwxyz0123456789-_"

def b64StdAlphabet : List Char := b64StdAlphabetStr.toList

def b64UrlAlphabet : List Char := b64UrlAlphabetStr.toList

/-- Character for a six-bit value in the standard base64 alphabet. -/
def b64Char (i : Nat) : Char := b64StdAlphabet.getD i 'A'

/-- Character for a six-bit value in the base64url alphabet. -/
def b64UrlChar (i : Nat) : Char := b64UrlAlphabet.getD i 'A'

def indexInList (c : Char) : List Char → Option Nat
| [] => none
| d :: rest => if d = c then some 0 else (indexInList c rest).map (· + 1)

/-- Index of a character in the standard base64 alphabet, if present. -/
def b64Index (c : Char) : Option Nat := indexInList c b64StdAlphabet

/-- Six-bit groups of a byte sequence, in base64 chunk order. -/
def b64Sextets : List Nat → List Nat
| a :: b :: c :: rest =>
  a / 4 :: (a % 4 * 16 + b / 16) :: (b % 16 * 4 + c / 64) :: c % 64 :: b64Sextets rest
| [a, b] => [a / 4, a % 4 * 16 + b / 16, b % 16 * 4]
| [a] => [a / 4, a % 4 * 16]
| [] => []

/-- Modelled from the spec: base64url `encode` (§4.1). The repository delegates
encoding to `uint8ArrayToBase64Url` of `@sd-jwt/utils`, which is not part of
this repository: standard base64 alphabet with `+`→`-`, `/`→`_` and all `=`
padding stripped. -/
def base64urlEncode (bs : List Nat) : List Char := (b64Sextets bs).map b64UrlChar

/-- Modelled from the spec: the platform `atob` called by `fromBase64Url`;
`atob` is a JavaScript builtin, not part of this repository. It fails on
input whose length is not a multiple of four, on characters outside the
standard base64 alphabet, and on misplaced `=` padding; it does not reject
non-canonical leftover bits, matching the lenient platform behaviour. -/
def atob : List Char → Option (List Nat)
| [] => some []
| c1 :: c2 :: c3 :: c4 :: rest =>
  match b64Index c1, b64Index c2 with
  | some i1, some i2 =>
    if c3 = '=' then
      if c4 = '=' ∧ rest = [] then some [i1 * 4 + i2 / 16] else none
    else
      match b64Index c3 with
      | some i3 =>
        if c4 = '=' then
          if rest = [] then some [i1 * 4 + i2 / 16, i2 % 16 * 16 + i3 / 4] else none
        else
          match b64Index c4 with
          | some i4 =>
            match atob rest with
            | some bs => some ((i1 * 4 + i2 / 16) :: (i2 % 16 * 16 + i3 / 4) :: (i3 % 4 * 64 + i4) :: bs)
            | none => none
          | none => none
      | none => none
  | _, _ => none
| _ => none

/-- Character substitution step of `fromBase64Url` (src/unnamed/part_000 line 16):
`-`→`+` and `_`→`/`. -/
def substChar (c : Char) : Char := if c = '-' then '+' else if c = '_' then '/' else c

/-- Embeds the substitution and re-padding steps of `fromBase64Url`
(src/unnamed/part_000 lines 16–22): append `==` when the length is 2 mod 4,
`=` when it is 3 mod 4, and nothing otherwise (in particular nothing when it
is 1 mod 4). -/
def restoreB64 (s : List Char) : List Char :=
  let base64 := s.map substChar
  let pad := base64.length % 4
  if pad = 2 then base64 ++ ['=', '=']
  else if pad = 3 then base64 ++ ['=']
  else base64

/-- Embeds `fromBase64Url` (src/unnamed/part_000 lines 15–29, duplicated in
src/test.ts lines 98–112): substitute, re-pad, then decode with `atob`;
`none` models the thrown `DecodeError`. -/
def fromBase64Url (s : List Char) : Option (List Nat) := atob (restoreB64 s)

/-- Padding characters required for a base64 body of the given length. -/
def b64Pad (L : Nat) : List Char :=
  if L % 4 = 2 then ['=', '='] else if L % 4 = 3 then ['='] else []

theorem restoreB64_eq (s : List Char) :
    restoreB64 s = s.map substChar ++ b64Pad s.length := by
  simp only [restoreB64, b64Pad, List.length_map]
  split
  · rfl
  · split
    · rfl
    · simp

theorem b64Pad_add_four (L : Nat) : b64Pad (L + 4) = b64Pad L := by
  simp [b64Pad, Nat.add_mod_right]

theorem b64Index_b64Char : ∀ i < 64, b64Index (b64Char i) = some i := by decide

theorem b64Char_ne_pad : ∀ i < 64, b64Char i ≠ '=' := by decide

theorem substChar_b64UrlChar : ∀ i < 64, substChar (b64UrlChar i) = b64Char i := by decide

theorem b64Sextets_lt (bs : List Nat) (h : ∀ x ∈ bs, x < 256) :
    ∀ v ∈ b64Sextets bs, v < 64 := by
  induction bs using b64Sextets.induct with
  | case1 a b c rest ih =>
    have ha : a < 256 := h a (by simp)
    have hb : b < 256 := h b (by simp)
    have hc : c < 256 := h c (by simp)
    intro v hv
    simp only [b64Sextets, List.mem_cons] at hv
    rcases hv with h1 | h1 | h1 | h1 | h1
    all_goals first
      | omega
      | exact ih (fun x hx => h x (by simp [hx])) v h1
  | case2 a b =>
    have ha : a < 256 := h a (by simp)
    have hb : b < 256 := h b (by simp)
    intro v hv
    simp only [b64Sextets, List.mem_cons, List.not_mem_nil, or_false] at hv
    rcases hv with h1 | h1 | h1 <;> omega
  | case3 a =>
    have ha : a < 256 := h a (by simp)
    intro v hv
    simp only [b64Sextets, List.mem_cons, List.not_mem_nil, or_false] at hv
    rcases hv with h1 | h1 <;> omega
  | case4 => simp [b64Sextets]

theorem atob_map_b64Char (bs : List Nat) (h : ∀ x ∈ bs, x < 256) :
    atob ((b64Sextets bs).map b64Char ++ b64Pad (b64Sextets bs).length) = some bs := by
  induction bs using b64Sextets.induct with
  | case4 => simp [b64Sextets, b64Pad, atob]
  | case3 a =>
    have ha : a < 256 := h a (by simp)
    have h1 : b64Index (b64Char (a / 4)) = some (a / 4) := b64Index_b64Char _ (by omega)
    have h2 : b64Index (b64Char (a % 4 * 16)) = some (a % 4 * 16) := b64Index_b64Char _ (by omega)
    simp only [b64Sextets, List.map_cons, List.map_nil, List.length_cons, List.length_nil,
      b64Pad]
    norm_num [atob, h1, h2]
    omega
  | case2 a b =>
    have ha : a < 256 := h a (by simp)
    have hb : b < 256 := h b (by simp)
    have h1 : b64Index (b64Char (a / 4)) = some (a / 4) := b64Index_b64Char _ (by omega)
    have h2 : b64Index (b64Char (a % 4 * 16 + b / 16)) = some (a % 4 * 16 + b / 16) :=
      b64Index_b64Char _ (by omega)
    have h3 : b64Index (b64Char (b % 16 * 4)) = some (b % 16 * 4) := b64Index_b64Char _ (by omega)
    have hne3 : b64Char (b % 16 * 4) ≠ '=' := b64Char_ne_pad _ (by omega)
    simp only [b64Sextets, List.map_cons, List.map_nil, List.length_cons, List.length_nil,
      b64Pad]
    norm_num [atob, h1, h2, h3, hne3]
    constructor <;> omega
  | case1 a b c rest ih =>
    have ha : a < 256 := h a (by simp)
    have hb : b < 256 := h b (by simp)
    have hc : c < 256 := h c (by simp)
    have h1 : b64Index (b64Char (a / 4)) = some (a / 4) := b64Index_b64Char _ (by omega)
    have h2 : b64Index (b64Char (a % 4 * 16 + b / 16)) = some (a % 4 * 16 + b / 16) :=
      b64Index_b64Char _ (by omega)
    have h3 : b64Index (b64Char (b % 16 * 4 + c / 64)) = some (b % 16 * 4 + c / 64) :=
      b64Index_b64Char _ (by omega)
    have h4 : b64Index (b64Char (c % 64)) = some (c % 64) := b64Index_b64Char _ (by omega)
    have hne3 : b64Char (b % 16 * 4 + c / 64) ≠ '=' := b64Char_ne_pad _ (by omega)
    have hne4 : b64Char (c % 64) ≠ '=' := b64Char_ne_pad _ (by omega)
    have ihh := ih (fun x hx => h x (by simp [hx]))
    simp only [b64Sextets, List.map_cons, List.length_cons]
    have hpad : b64Pad ((b64Sextets rest).map b64Char).length.succ.succ.succ.succ
        = b64Pad ((b64Sextets rest).map b64Char).length := by
      have : ((b64Sextets rest).map b64Char).length.succ.succ.succ.succ
          = ((b64Sextets rest).map b64Char).length + 4 := by omega
      rw [this, b64Pad_add_four]
    simp only [List.length_map] at hpad ihh ⊢
    rw [List.cons_append, List.cons_append, List.cons_append, List.cons_append]
    simp only [atob, h1, h2, h3, h4, hne3, hne4, if_neg, hpad, ihh]
    norm_num
    refine ⟨by omega, by omega, by omega⟩

theorem fromBase64Url_base64urlEncode (bs : List Nat) (h : ∀ x ∈ bs, x < 256) :
    fromBase64Url (base64urlEncode bs) = some bs := by
  have hlt := b64Sextets_lt bs h
  have hmap : (base64urlEncode bs).map substChar = (b64Sextets bs).map b64Char := by
    simp only [base64urlEncode, List.map_map]
    exact List.map_congr_left fun v hv => substChar_b64UrlChar v (hlt v hv)
  have hlen : (base64urlEncode bs).length = (b64Sextets bs).length := by
    simp [base64urlEncode]
  rw [fromBase64Url, restoreB64_eq, hmap, hlen]
  have hlenmap : (b64Sextets bs).length = ((b64Sextets bs).map b64Char).length := by simp
  exact atob_map_b64Char bs h

/-- Valid strict base64 text: length a multiple of four, alphabet characters,
and `=` padding only as the final one or two characters. This is the
specification-side notion of "valid base64" used by §4.1 of the spec. -/
def isValidB64 : List Char → Bool
| [] => true
| c1 :: c2 :: c3 :: c4 :: rest =>
  match b64Index c1, b64Index c2 with
  | some _, some _ =>
    if c3 = '=' then decide (c4 = '=' ∧ rest = [])
    else
      match b64Index c3 with
      | some _ =>
        if c4 = '=' then decide (rest = [])
        else
          match b64Index c4 with
          | some _ => isValidB64 rest
          | none => false
      | none => false
  | _, _ => false
| _ => false

/-- Specification-side base64 decoding, total on valid input. -/
def decodeB64 : List Char → List Nat
| c1 :: c2 :: c3 :: c4 :: rest =>
  let i1 := (b64Index c1).getD 0
  let i2 := (b64Index c2).getD 0
  if c3 = '=' then [i1 * 4 + i2 / 16]
  else
    let i3 := (b64Index c3).getD 0
    if c4 = '=' then [i1 * 4 + i2 / 16, i2 % 16 * 16 + i3 / 4]
    else (i1 * 4 + i2 / 16) :: (i2 % 16 * 16 + i3 / 4) ::
      (i3 % 4 * 64 + (b64Index c4).getD 0) :: decodeB64 rest
| _ => []

theorem atob_valid (s : List Char) :
    atob s = if isValidB64 s = true then some (decodeB64 s) else none := by
  induction s using atob.induct with
  | case1 => simp [atob, isValidB64, decodeB64]
  | case2 c1 c2 c4 rest i1 i2 h2 h1 hc =>
    obtain ⟨hc4, hrest⟩ := hc
    subst hc4; subst hrest
    simp [atob, isValidB64, decodeB64, h1, h2]
  | case3 c1 c2 c4 rest i1 i2 h2 h1 hc =>
    simp [atob, isValidB64, decodeB64, h1, h2, hc]
  | case4 c1 c2 c3 i1 i2 h2 h1 hc3 i3 h3 =>
    simp [atob, isValidB64, decodeB64, h1, h2, h3, hc3]
  | case5 c1 c2 c3 rest i1 i2 h2 h1 hc3 i3 h3 hrest =>
    simp [atob, isValidB64, decodeB64, h1, h2, h3, hc3, hrest]
  | case6 c1 c2 c3 c4 rest i1 i2 h2 h1 hc3 i3 h3 hc4 i4 h4 bs hbs ih =>
    rw [hbs] at ih
    simp only [atob, isValidB64, decodeB64, h1, h2, h3, h4, hbs, if_neg hc3, if_neg hc4]
    by_cases hv : isValidB64 rest = true
    · rw [if_pos hv] at ih ⊢
      simp only [Option.some.injEq] at ih
      simp [ih]
    · rw [if_neg hv] at ih
      exact absurd ih (by simp)
  | case7 c1 c2 c3 c4 rest i1 i2 h2 h1 hc3 i3 h3 hc4 i4 h4 hbs ih =>
    rw [hbs] at ih
    simp only [atob, isValidB64, decodeB64, h1, h2, h3, h4, hbs, if_neg hc3, if_neg hc4]
    by_cases hv : isValidB64 rest = true
    · rw [if_pos hv] at ih
      exact absurd ih (by simp)
    · rw [if_neg hv]
  | case8 c1 c2 c3 c4 rest i1 i2 h2 h1 hc3 i3 h3 hc4 h4 =>
    simp [atob, isValidB64, decodeB64, h1, h2, h3, h4, hc3, hc4]
  | case9 c1 c2 c3 c4 rest i1 i2 h2 h1 hc3 h3 =>
    simp [atob, isValidB64, decodeB64, h1, h2, h3, hc3]
  | case10 c1 c2 c3 c4 rest hnone =>
    rcases ha : b64Index c1 with _ | i1
    · simp [atob, isValidB64, ha]
    · rcases hb : b64Index c2 with _ | i2
      · simp [atob, isValidB64, ha, hb]
      · exact (hnone i1 i2 ha hb).elim
  | case11 t hnil hcons =>
    match t, hnil, hcons with
    | [], hnil, _ => exact absurd rfl hnil
    | [c1], _, _ => simp [atob, isValidB64]
    | [c1, c2], _, _ => simp [atob, isValidB64]
    | [c1, c2, c3], _, _ => simp [atob, isValidB64]
    | c1 :: c2 :: c3 :: c4 :: rest, _, hcons => exact absurd rfl (hcons c1 c2 c3 c4 rest)

theorem isValidB64_length (s : List Char) (h : isValidB64 s = true) : s.length % 4 = 0 := by
  induction s using atob.induct with
  | case1 => rfl
  | case2 c1 c2 c4 rest i1 i2 h2 h1 hc =>
    obtain ⟨hc4, hrest⟩ := hc
    subst hrest
    simp
  | case3 c1 c2 c4 rest i1 i2 h2 h1 hc =>
    simp [isValidB64, h1, h2, hc] at h
  | case4 c1 c2 c3 i1 i2 h2 h1 hc3 i3 h3 =>
    simp
  | case5 c1 c2 c3 rest i1 i2 h2 h1 hc3 i3 h3 hrest =>
    simp [isValidB64, h1, h2, h3, hc3, hrest] at h
  | case6 c1 c2 c3 c4 rest i1 i2 h2 h1 hc3 i3 h3 hc4 i4 h4 bs hbs ih =>
    simp only [isValidB64, h1, h2, h3, h4, if_neg hc3, if_neg hc4] at h
    simp only [List.length_cons]
    have := ih h
    omega
  | case7 c1 c2 c3 c4 rest i1 i2 h2 h1 hc3 i3 h3 hc4 i4 h4 hbs ih =>
    simp only [isValidB64, h1, h2, h3, h4, if_neg hc3, if_neg hc4] at h
    simp only [List.length_cons]
    have := ih h
    omega
  | case8 c1 c2 c3 c4 rest i1 i2 h2 h1 hc3 i3 h3 hc4 h4 =>
    simp [isValidB64, h1, h2, h3, h4, hc3, hc4] at h
  | case9 c1 c2 c3 c4 rest i1 i2 h2 h1 hc3 h3 =>
    simp [isValidB64, h1, h2, h3, hc3] at h
  | case10 c1 c2 c3 c4 rest hnone =>
    rcases ha : b64Index c1 with _ | i1
    · simp [isValidB64, ha] at h
    · rcases hb : b64Index c2 with _ | i2
      · simp [isValidB64, ha, hb] at h
      · exact (hnone i1 i2 ha hb).elim
  | case11 t hnil hcons =>
    match t, hnil, hcons, h with
    | [], hnil, _, _ => exact absurd rfl hnil
    | [c1], _, _, h => simp [isValidB64] at h
    | [c1, c2], _, _, h => simp [isValidB64] at h
    | [c1, c2, c3], _, _, h => simp [isValidB64] at h
    | c1 :: c2 :: c3 :: c4 :: rest, _, hcons, _ => exact absurd rfl (hcons c1 c2 c3 c4 rest)

/-- C3: for every byte sequence `b` (including the empty sequence),
base64url-decoding the base64url-encoding of `b` returns `b`:
`fromBase64Url (base64urlEncode b) = some b`, where the encoder uses the
base64url alphabet with all `=` padding stripped and the decoder reverses
the substitution and re-pads. -/
theorem claim_C3_base64url_roundtrip (b : List Nat) (h : ∀ x ∈ b, x < 256) :
    fromBase64Url (base64urlEncode b) = some b :=
  fromBase64Url_base64urlEncode b h

/-- Witness for C3, at the byte sequence of "Hello" and at the empty sequence. -/
theorem claim_C3_base64url_roundtrip_witness :
    fromBase64Url (base64urlEncode [72, 101, 108, 108, 111]) = some [72, 101, 108, 108, 111] ∧
    fromBase64Url (base64urlEncode []) = some [] :=
  ⟨claim_C3_base64url_roundtrip [72, 101, 108, 108, 111] (by decide),
   claim_C3_base64url_roundtrip [] (by decide)⟩

/-- C5: the base64url decode operation fails (`none`, modelling `DecodeError`)
for every input whose restored — substituted and re-padded — form is not valid
base64, and for every input whose length is 1 mod 4; on every input whose
restored form is valid base64 it returns the decoded bytes. -/
theorem claim_C5_decode_error_conditions (s : List Char) :
    (s.length % 4 = 1 → fromBase64Url s = none) ∧
    (isValidB64 (restoreB64 s) = false → fromBase64Url s = none) ∧
    (isValidB64 (restoreB64 s) = true → fromBase64Url s = some (decodeB64 (restoreB64 s))) := by
  refine ⟨?_, ?_, ?_⟩
  · intro h1
    have hre : restoreB64 s = s.map substChar := by
      simp only [restoreB64, List.length_map]
      rw [if_neg (by omega), if_neg (by omega)]
    rw [fromBase64Url, atob_valid]
    have hlen : (restoreB64 s).length = s.length := by
      rw [hre]
      simp
    by_cases hv : isValidB64 (restoreB64 s) = true
    · have := isValidB64_length _ hv
      omega
    · rw [if_neg hv]
  · intro h1
    rw [fromBase64Url, atob_valid, if_neg (by simp [h1])]
  · intro h1
    rw [fromBase64Url, atob_valid, if_pos h1]

/-- Witness for C5: a length-1 input fails, a valid 4-character input decodes. -/
theorem claim_C5_decode_error_conditions_witness :
    fromBase64Url ['a'] = none ∧ fromBase64Url ['A', 'B', 'C', 'D'] = some [0, 16, 131] :=
  ⟨(claim_C5_decode_error_conditions ['a']).1 (by decide),
   ((claim_C5_decode_error_conditions ['A', 'B', 'C', 'D']).2.2 (by decide)).trans (by decide)⟩

/-! ## UTF-16 code units and UTF-8 bytes -/

theorem lor_two_pow_mul (k a b : ℕ) (hb : b < 2 ^ k) : (2 ^ k * a) ||| b = 2 ^ k * a + b := by
  induction k generalizing b with
  | zero => interval_cases b <;> simp
  | succ k ih =>
    rw [pow_succ] at hb
    have hd : b.div2 < 2 ^ k := by
      rw [Nat.div2_val]
      omega
    have h1 : 2 ^ (k + 1) * a = Nat.bit false (2 ^ k * a) := by
      simp [Nat.bit_val]
      ring
    have h2 : b = Nat.bit b.bodd b.div2 := (Nat.bit_decomp b).symm
    rw [h1, h2, Nat.lor_bit, ih _ hd]
    have h3 := Nat.bodd_add_div2 b
    cases hbo : b.bodd <;> simp [hbo, Nat.bit_val] at h3 ⊢ <;>
      rw [Nat.div2_val] at h3 ⊢ <;> ring_nf <;> omega

theorem and_mask_1023 (x : ℕ) : x &&& 1023 = x % 1024 := by
  have h : (1023 : ℕ) = 2 ^ 10 - 1 := by norm_num
  have h2 : (1024 : ℕ) = 2 ^ 10 := by norm_num
  rw [h, h2, Nat.and_pow_two_sub_one_eq_mod]

theorem and_mask_63 (x : ℕ) : x &&& 63 = x % 64 := by
  have h : (63 : ℕ) = 2 ^ 6 - 1 := by norm_num
  have h2 : (64 : ℕ) = 2 ^ 6 := by norm_num
  rw [h, h2, Nat.and_pow_two_sub_one_eq_mod]

/-- Scalar Unicode code point: in range and not a surrogate. -/
def IsScalar (c : Nat) : Prop := c < 0x110000 ∧ (c < 0xD800 ∨ 0xE000 ≤ c)

instance (c : Nat) : Decidable (IsScalar c) := by
  unfold IsScalar
  infer_instance

/-- Standard UTF-16 encoding of a sequence of scalar code points as 16-bit
code units, used to state well-formedness of a JavaScript string. -/
def utf16Encode : List Nat → List Nat
| [] => []
| c :: rest =>
  if c < 0x10000 then c :: utf16Encode rest
  else (0xD800 + (c - 0x10000) / 0x400) :: (0xDC00 + (c - 0x10000) % 0x400) :: utf16Encode rest

/-- Standard UTF-8 encoding (RFC 3629) of a sequence of scalar code points;
this is the specification side of claim C10. -/
def utf8Encode : List Nat → List Nat
| [] => []
| c :: rest =>
  (if c < 0x80 then [c]
   else if c < 0x800 then [0xC0 + c / 64, 0x80 + c % 64]
   else if c < 0x10000 then [0xE0 + c / 4096, 0x80 + c / 64 % 64, 0x80 + c % 64]
   else [0xF0 + c / 0x40000, 0x80 + c / 4096 % 64, 0x80 + c / 64 % 64, 0x80 + c % 64]) ++
  utf8Encode rest

/-- Embeds `toUTF8Array` (src/unnamed/part_000 lines 35–66), operating on the
UTF-16 code units of the JavaScript string. In the lone-trailing-surrogate
case the source reads `str.charCodeAt(i)` out of range, which yields `NaN`,
and `NaN & 0x3ff` evaluates to 0; that path is modelled faithfully but is
unreachable from well-formed input. -/
def toUTF8Array : List Nat → List Nat
| [] => []
| c :: rest =>
  if c < 0x80 then c :: toUTF8Array rest
  else if c < 0x800 then (0xc0 ||| (c >>> 6)) :: (0x80 ||| (c &&& 0x3f)) :: toUTF8Array rest
  else if c < 0xD800 ∨ 0xE000 ≤ c then
    (0xe0 ||| (c >>> 12)) :: (0x80 ||| ((c >>> 6) &&& 0x3f)) :: (0x80 ||| (c &&& 0x3f)) ::
      toUTF8Array rest
  else
    match rest with
    | [] =>
      let cp := 0x10000 + ((c &&& 0x3ff) <<< 10 ||| 0)
      [0xf0 ||| (cp >>> 18), 0x80 ||| ((cp >>> 12) &&& 0x3f),
       0x80 ||| ((cp >>> 6) &&& 0x3f), 0x80 ||| (cp &&& 0x3f)]
    | v :: rest2 =>
      let cp := 0x10000 + ((c &&& 0x3ff) <<< 10 ||| (v &&& 0x3ff))
      (0xf0 ||| (cp >>> 18)) :: (0x80 ||| ((cp >>> 12) &&& 0x3f)) ::
        (0x80 ||| ((cp >>> 6) &&& 0x3f)) :: (0x80 ||| (cp &&& 0x3f)) :: toUTF8Array rest2

theorem lor_128_mask (x : ℕ) : 0x80 ||| (x &&& 0x3f) = 0x80 + x % 64 := by
  rw [and_mask_63]
  have h : (0x80 : ℕ) = 2 ^ 7 * 1 := by norm_num
  rw [h, lor_two_pow_mul 7 1 (x % 64) (by omega)]

theorem toUTF8Array_cons (c : Nat) (rest : List Nat) :
    toUTF8Array (c :: rest) =
      if c < 0x80 then c :: toUTF8Array rest
      else if c < 0x800 then (0xc0 ||| (c >>> 6)) :: (0x80 ||| (c &&& 0x3f)) :: toUTF8Array rest
      else if c < 0xD800 ∨ 0xE000 ≤ c then
        (0xe0 ||| (c >>> 12)) :: (0x80 ||| ((c >>> 6) &&& 0x3f)) :: (0x80 ||| (c &&& 0x3f)) ::
          toUTF8Array rest
      else
        match rest with
        | [] =>
          let cp := 0x10000 + ((c &&& 0x3ff) <<< 10 ||| 0)
          [0xf0 ||| (cp >>> 18), 0x80 ||| ((cp >>> 12) &&& 0x3f),
           0x80 ||| ((cp >>> 6) &&& 0x3f), 0x80 ||| (cp &&& 0x3f)]
        | v :: rest2 =>
          let cp := 0x10000 + ((c &&& 0x3ff) <<< 10 ||| (v &&& 0x3ff))
          (0xf0 ||| (cp >>> 18)) :: (0x80 ||| ((cp >>> 12) &&& 0x3f)) ::
            (0x80 ||| ((cp >>> 6) &&& 0x3f)) :: (0x80 ||| (cp &&& 0x3f)) :: toUTF8Array rest2 := by
  rw [toUTF8Array.eq_def]

theorem toUTF8Array_utf16 (cps : List Nat) (h : ∀ c ∈ cps, IsScalar c) :
    toUTF8Array (utf16Encode cps) = utf8Encode cps := by
  induction cps with
  | nil => rfl
  | cons c rest ih =>
    obtain ⟨hlt, hsur⟩ := h c (by simp)
    have ihh := ih fun x hx => h x (by simp [hx])
    by_cases hc : c < 0x10000
    · rw [utf16Encode, if_pos hc]
      by_cases h80 : c < 0x80
      · rw [toUTF8Array_cons, if_pos h80, utf8Encode, if_pos h80, ihh]
        simp
      · by_cases h800 : c < 0x800
        · rw [toUTF8Array_cons, if_neg h80, if_pos h800]
          rw [utf8Encode, if_neg h80, if_pos h800, ihh]
          have e1 : 0xc0 ||| (c >>> 6) = 0xC0 + c / 64 := by
            rw [Nat.shiftRight_eq_div_pow]
            have h2 : (0xc0 : ℕ) = 2 ^ 6 * 3 := by norm_num
            rw [h2, lor_two_pow_mul 6 3 (c / 2 ^ 6) (by omega)]
          rw [e1, lor_128_mask]
          simp
        · rw [toUTF8Array_cons, if_neg h80, if_neg h800, if_pos hsur]
          rw [utf8Encode, if_neg h80, if_neg h800, if_pos hc, ihh]
          have e1 : 0xe0 ||| (c >>> 12) = 0xE0 + c / 4096 := by
            rw [Nat.shiftRight_eq_div_pow]
            have h2 : (0xe0 : ℕ) = 2 ^ 5 * 7 := by norm_num
            rw [h2, lor_two_pow_mul 5 7 (c / 2 ^ 12) (by omega)]
          rw [e1, lor_128_mask, lor_128_mask, Nat.shiftRight_eq_div_pow]
          norm_num
    · have hq : (c - 0x10000) / 0x400 < 0x400 := by omega
      have hr : (c - 0x10000) % 0x400 < 0x400 := by omega
      rw [utf16Encode, if_neg hc]
      set hi := 0xD800 + (c - 0x10000) / 0x400 with hhi
      set lo := 0xDC00 + (c - 0x10000) % 0x400 with hlo
      have hhi80 : ¬hi < 0x80 := by omega
      have hhi800 : ¬hi < 0x800 := by omega
      have hhisur : ¬(hi < 0xD800 ∨ 0xE000 ≤ hi) := by omega
      rw [toUTF8Array_cons, if_neg hhi80, if_neg hhi800, if_neg hhisur]
      have hmaskhi : hi &&& 0x3ff = (c - 0x10000) / 0x400 := by
        rw [and_mask_1023]
        omega
      have hmasklo : lo &&& 0x3ff = (c - 0x10000) % 0x400 := by
        rw [and_mask_1023]
        omega
      have hcp : 0x10000 + ((hi &&& 0x3ff) <<< 10 ||| (lo &&& 0x3ff)) = c := by
        rw [hmaskhi, hmasklo, Nat.shiftLeft_eq]
        rw [Nat.mul_comm ((c - 0x10000) / 0x400) (2 ^ 10)]
        rw [lor_two_pow_mul 10 _ _ (by omega)]
        omega
      dsimp only
      rw [hcp, utf8Encode, if_neg (by omega), if_neg (by omega), if_neg hc, ihh]
      have e1 : 0xf0 ||| (c >>> 18) = 0xF0 + c / 0x40000 := by
        rw [Nat.shiftRight_eq_div_pow]
        have h2 : (0xf0 : ℕ) = 2 ^ 4 * 15 := by norm_num
        rw [h2, lor_two_pow_mul 4 15 (c / 2 ^ 18) (by omega)]
      rw [e1, lor_128_mask, lor_128_mask, lor_128_mask, Nat.shiftRight_eq_div_pow,
        Nat.shiftRight_eq_div_pow]
      norm_num

/-! ## SHA-256 -/

def w32 (x : Nat) : Nat := x % 4294967296

def rotr32 (n x : Nat) : Nat := x / 2 ^ n + x % 2 ^ n * 2 ^ (32 - n)

def shaCh (x y z : Nat) : Nat := (x &&& y) ^^^ ((4294967295 - x) &&& z)

def shaMaj (x y z : Nat) : Nat := (x &&& y) ^^^ (x &&& z) ^^^ (y &&& z)

def bsig0 (x : Nat) : Nat := rotr32 2 x ^^^ rotr32 13 x ^^^ rotr32 22 x

def bsig1 (x : Nat) : Nat := rotr32 6 x ^^^ rotr32 11 x ^^^ rotr32 25 x

def ssig0 (x : Nat) : Nat := rotr32 7 x ^^^ rotr32 18 x ^^^ (x >>> 3)

def ssig1 (x : Nat) : Nat := rotr32 17 x ^^^ rotr32 19 x ^^^ (x >>> 10)

/-- SHA-256 round constants, written in decimal. -/
def shaK : List Nat :=
  [1116352408, 1899447441, 3049323471, 3921009573, 961987163, 1508970993,
   2453635748, 2870763221, 3624381080, 310598401, 607225278, 1426881987,
   1925078388, 2162078206, 2614888103, 3248222580, 3835390401, 4022224774,
   264347078, 604807628, 770255983, 1249150122, 1555081692, 1996064986,
   2554220882, 2821834349, 2952996808, 3210313671, 3336571891, 3584528711,
   113926993, 338241895, 666307205, 773529912, 1294757372, 1396182291,
   1695183700, 1986661051, 2177026350, 2456956037, 2730485921, 2820302411,
   3259730800, 3345764771, 3516065817, 3600352804, 4094571909, 275423344,
   430227734, 506948616, 659060556, 883997877, 958139571, 1322822218,
   1537002063, 1747873779, 1955562222, 2024104815, 2227730452, 2361852424,
   2428436474, 2756734187, 3204031479, 3329325298]

/-- SHA-256 initial state words, written in decimal. -/
def shaH0 : List Nat :=
  [1779033703, 3144134277, 1013904242, 2773480762, 1359893119, 2600822924, 528734635, 1541459225]

def toWords : List Nat → List Nat
| a :: b :: c :: d :: rest => (((a * 256 + b) * 256 + c) * 256 + d) :: toWords rest
| _ => []

def extendW : Nat → List Nat → List Nat
| 0, w => w
| t + 1, w =>
  extendW t (w ++ [w32 (ssig1 (w.getD (w.length - 2) 0) + w.getD (w.length - 7) 0 +
    ssig0 (w.getD (w.length - 15) 0) + w.getD (w.length - 16) 0)])

def shaRound (st : List Nat) (kw : Nat × Nat) : List Nat :=
  match st with
  | [a, b, c, d, e, f, g, hh] =>
    let t1 := w32 (hh + bsig1 e + shaCh e f g + kw.1 + kw.2)
    let t2 := w32 (bsig0 a + shaMaj a b c)
    [w32 (t1 + t2), a, b, c, w32 (d + t1), e, f, g]
  | other => other

def compressBlock (H : List Nat) (block : List Nat) : List Nat :=
  let w := extendW 48 (toWords block)
  let st := (shaK.zip w).foldl shaRound H
  List.zipWith (fun a b => w32 (a + b)) H st

def shaPadLen (l : Nat) : Nat := (64 - (l + 9) % 64) % 64

def shaPad (msg : List Nat) : List Nat :=
  msg ++ 0x80 :: (List.replicate (shaPadLen msg.length) 0 ++ toBytesBE 8 (msg.length * 8))

def toBlocksAux : Nat → List Nat → List (List Nat)
| 0, _ => []
| _, [] => []
| fuel + 1, b :: rest => ((b :: rest).take 64) :: toBlocksAux fuel ((b :: rest).drop 64)

/-- Split a byte sequence into 64-byte blocks (fuel-based so that it reduces
in the kernel). -/
def toBlocks (bs : List Nat) : List (List Nat) := toBlocksAux bs.length bs

/-- Modelled from the spec: SHA-256 (FIPS 180-4) of a byte sequence. The
repository delegates hashing to `@noble/hashes` via `@sd-jwt/hash`, which is
not part of this repository. -/
def sha256Bytes (msg : List Nat) : List Nat :=
  (((toBlocks (shaPad msg)).foldl compressBlock shaH0).map (toBytesBE 4)).flatten

/-- Embeds the `sha256` helper (src/unnamed/part_000 lines 68–72): SHA-256 of
the hand-rolled UTF-8 conversion of the input string's UTF-16 code units. -/
def sha256Src (units : List Nat) : List Nat := sha256Bytes (toUTF8Array units)

/-- C10: for every well-formed JavaScript string — presented as the UTF-16
encoding of a list of Unicode scalar values — the hand-rolled `toUTF8Array`
returns exactly the standard UTF-8 encoding of the string, and hence the
`sha256` helper hashes the standard UTF-8 bytes of its input. -/
theorem claim_C10_utf8_correct (cps : List Nat) (h : ∀ c ∈ cps, IsScalar c) :
    toUTF8Array (utf16Encode cps) = utf8Encode cps ∧
    sha256Src (utf16Encode cps) = sha256Bytes (utf8Encode cps) := by
  have h1 := toUTF8Array_utf16 cps h
  exact ⟨h1, by rw [sha256Src, h1]⟩

/-- Witness for C10 at the string "aé€𝄞" (one scalar from each UTF-8 length
class: U+0061, U+00E9, U+20AC, U+1D11E). -/
theorem claim_C10_utf8_correct_witness :
    toUTF8Array (utf16Encode [0x61, 0xE9, 0x20AC, 0x1D11E]) =
      utf8Encode [0x61, 0xE9, 0x20AC, 0x1D11E] ∧
    sha256Src (utf16Encode [0x61, 0xE9, 0x20AC, 0x1D11E]) =
      sha256Bytes (utf8Encode [0x61, 0xE9, 0x20AC, 0x1D11E]) :=
  claim_C10_utf8_correct [0x61, 0xE9, 0x20AC, 0x1D11E] (by decide)

/-! ## Modular exponentiation and inverses -/

def powModAux (b : Nat) : Nat → Nat → Nat → Nat
| 0, _, m => 1 % m
| fuel + 1, e, m =>
  if e = 0 then 1 % m
  else
    let h := powModAux b fuel (e / 2) m
    if e % 2 = 0 then h * h % m else h * h * b % m

/-- Modular exponentiation by squaring (fuel-based so that it reduces in the
kernel). -/
def powMod (b e m : Nat) : Nat := powModAux b e e m

theorem powModAux_eq (b : Nat) :
    ∀ fuel e m, e ≤ fuel → powModAux b fuel e m = b ^ e % m := by
  intro fuel
  induction fuel with
  | zero =>
    intro e m he
    have : e = 0 := by omega
    subst this
    simp [powModAux]
  | succ f ih =>
    intro e m he
    rw [powModAux]
    by_cases he0 : e = 0
    · subst he0
      simp
    · rw [if_neg he0]
      have hrec : e / 2 ≤ f := by omega
      rw [ih _ m hrec]
      by_cases hp : e % 2 = 0
      · rw [if_pos hp]
        have hee : b ^ e = b ^ (e / 2) * b ^ (e / 2) := by
          rw [← pow_add]
          congr 1
          omega
        rw [hee]
        exact (Nat.mod_modEq _ m).mul (Nat.mod_modEq _ m)
      · rw [if_neg hp]
        have hee : b ^ e = b ^ (e / 2) * b ^ (e / 2) * b := by
          rw [← pow_add, ← pow_succ]
          congr 1
          omega
        rw [hee]
        exact ((Nat.mod_modEq _ m).mul (Nat.mod_modEq _ m)).mul_right b

theorem powMod_eq (b e m : Nat) : powMod b e m = b ^ e % m :=
  powModAux_eq b e e m le_rfl

def invMod (a n : Nat) : Nat := powMod a (n - 2) n

theorem invMod_correct (a n : Nat) (hp : n.Prime) (ha : a % n ≠ 0) :
    a * invMod a n % n = 1 := by
  haveI := Fact.mk hp
  have hn2 : 2 ≤ n := hp.two_le
  have h0 : (a : ZMod n) ≠ 0 := by
    rw [Ne, ZMod.natCast_zmod_eq_zero_iff_dvd]
    intro hdvd
    exact ha (Nat.dvd_iff_mod_eq_zero.mp hdvd)
  have hfer : (a : ZMod n) ^ (n - 1) = 1 := ZMod.pow_card_sub_one_eq_one h0
  have hmod : a * invMod a n ≡ a ^ (n - 1) [MOD n] := by
    rw [invMod, powMod_eq]
    calc a * (a ^ (n - 2) % n) ≡ a * a ^ (n - 2) [MOD n] :=
          Nat.ModEq.mul_left a (Nat.mod_modEq _ n)
      _ = a ^ (n - 1) := by
          rw [← pow_succ']
          congr 1
          omega
  have hone : a ^ (n - 1) ≡ 1 [MOD n] := by
    rw [← ZMod.natCast_eq_natCast_iff]
    push_cast
    rw [hfer]
  have hfin : a * invMod a n % n = 1 % n := hmod.trans hone
  have h1n : 1 % n = 1 := Nat.mod_eq_of_lt (by omega)
  rw [h1n] at hfin
  exact hfin

/-! ## ECDSA over an abstract prime-order group -/

deriving instance DecidableEq for Except

/-- Error raised by the signing engine; `InvalidScalar` is the spec's name for
a zero or out-of-range private scalar, `RetryNeeded` models the internal
restart of nonce generation when `r` or `s` would be zero. -/
inductive SigError
| InvalidScalar
| RetryNeeded
deriving DecidableEq, Repr

/-- Modelled from the spec (§4.3): ECDSA signature generation over a digest
`z`, private scalar `d` and nonce `k`, on a group with generator `P` of prime
order `n` and x-coordinate function `xc`. The elliptic-curve engine is
`@noble/curves`, which is not part of this repository; P-256 instantiates the
group parameters. Returns the pair `(r, s)`. -/
def ecdsaSign (G : Type) [AddCommGroup G] (P : G) (xc : G → Nat) (n : Nat)
    (z d k : Nat) : Except SigError (Nat × Nat) :=
  if d = 0 ∨ n ≤ d then .error .InvalidScalar
  else
    let kk := k % n
    if kk = 0 then .error .RetryNeeded
    else
      let r := xc (kk • P) % n
      if r = 0 then .error .RetryNeeded
      else
        let s := invMod kk n * ((z + r * d) % n) % n
        if s = 0 then .error .RetryNeeded else .ok (r, s)

/-- Modelled from the spec (§4.3): standard ECDSA verification of `(r, s)`
against digest `z` and public point `Q`; returns `false` (never throws) for
structurally invalid signatures. -/
def ecdsaVerify (G : Type) [AddCommGroup G] [DecidableEq G] (P : G) (xc : G → Nat)
    (n : Nat) (z : Nat) (sig : Nat × Nat) (Q : G) : Bool :=
  let r := sig.1
  let s := sig.2
  if r = 0 ∨ n ≤ r ∨ s = 0 ∨ n ≤ s then false
  else
    let w := invMod s n
    let u1 := z * w % n
    let u2 := r * w % n
    let R := u1 • P + u2 • Q
    if R = 0 then false else decide (xc R % n = r)

theorem nsmul_mod_addOrderOf (G : Type) [AddCommGroup G] (P : G) (n m : Nat)
    (hord : addOrderOf P = n) : (m % n) • P = m • P := by
  have hz : n • P = 0 := by
    rw [← hord]
    exact addOrderOf_nsmul_eq_zero P
  conv_rhs => rw [← Nat.div_add_mod m n]
  rw [add_nsmul, mul_nsmul, hz, smul_zero, zero_add]

theorem ecdsaSign_ok_bounds (G : Type) [AddCommGroup G] (P : G) (xc : G → Nat)
    (n z d k r s : Nat) (h : ecdsaSign G P xc n z d k = .ok (r, s)) :
    0 < r ∧ r < n ∧ 0 < s ∧ s < n ∧ 0 < d ∧ d < n := by
  rw [ecdsaSign] at h
  dsimp only at h
  split at h
  · exact absurd h (by simp)
  · next hd =>
    push_neg at hd
    split at h
    · exact absurd h (by simp)
    · next hk =>
      split at h
      · exact absurd h (by simp)
      · next hr =>
        split at h
        · exact absurd h (by simp)
        · next hs =>
          simp only [Except.ok.injEq, Prod.mk.injEq] at h
          obtain ⟨hr', hs'⟩ := h
          have hn : 0 < n := by omega
          subst hr'
          subst hs'
          refine ⟨by omega, Nat.mod_lt _ hn, by omega, Nat.mod_lt _ hn, by omega, by omega⟩

theorem ecdsaVerify_sign (G : Type) [AddCommGroup G] [DecidableEq G] (P : G)
    (xc : G → Nat) (n : Nat) (hp : n.Prime) (hord : addOrderOf P = n)
    (z d k r s : Nat) (hsig : ecdsaSign G P xc n z d k = .ok (r, s)) :
    ecdsaVerify G P xc n z (r, s) (d • P) = true := by
  haveI := Fact.mk hp
  obtain ⟨hr0, hrn, hs0, hsn, hd0, hdn⟩ := ecdsaSign_ok_bounds G P xc n z d k r s hsig
  have hn0 : 0 < n := hp.pos
  -- unpack the signing equations
  rw [ecdsaSign] at hsig
  dsimp only at hsig
  rw [if_neg (by omega)] at hsig
  set kk := k % n with hkk
  have hkklt : kk < n := Nat.mod_lt _ hn0
  split at hsig
  · exact absurd hsig (by simp)
  · next hkk0 =>
    split at hsig
    · exact absurd hsig (by simp)
    · next hrr0 =>
      split at hsig
      · exact absurd hsig (by simp)
      · next hss0 =>
        simp only [Except.ok.injEq, Prod.mk.injEq] at hsig
        obtain ⟨hreq, hseq⟩ := hsig
        rw [hreq] at hseq
        -- the modular identity: u1 + u2 * d is congruent to kk mod n
        have hkinv : kk * invMod kk n % n = 1 :=
          invMod_correct kk n hp (by rw [Nat.mod_eq_of_lt hkklt]; omega)
        have hsinv : s * invMod s n % n = 1 :=
          invMod_correct s n hp (by rw [Nat.mod_eq_of_lt hsn]; omega)
        set w := invMod s n with hw
        set u1 := z * w % n with hu1
        set u2 := r * w % n with hu2
        have hcast : ((u1 + u2 * d : ℕ) : ZMod n) = ((kk : ℕ) : ZMod n) := by
          have hK : (kk : ZMod n) * (invMod kk n : ZMod n) = 1 := by
            have hc : ((kk * invMod kk n % n : ℕ) : ZMod n) = ((1 : ℕ) : ZMod n) := by
              rw [hkinv]
            rwa [ZMod.natCast_mod, Nat.cast_mul, Nat.cast_one] at hc
          have hS : (s : ZMod n) * (w : ZMod n) = 1 := by
            have hc : ((s * invMod s n % n : ℕ) : ZMod n) = ((1 : ℕ) : ZMod n) := by
              rw [hsinv]
            rwa [ZMod.natCast_mod, Nat.cast_mul, Nat.cast_one] at hc
          have hSdef : (s : ZMod n) =
              (invMod kk n : ZMod n) * ((z : ZMod n) + (r : ZMod n) * (d : ZMod n)) := by
            rw [← hseq]
            push_cast [ZMod.natCast_mod]
            ring
          have hU1 : (u1 : ZMod n) = (z : ZMod n) * (w : ZMod n) := by
            rw [hu1]
            push_cast [ZMod.natCast_mod]
            ring
          have hU2 : (u2 : ZMod n) = (r : ZMod n) * (w : ZMod n) := by
            rw [hu2]
            push_cast [ZMod.natCast_mod]
            ring
          have hZRD : (z : ZMod n) + (r : ZMod n) * (d : ZMod n) = (kk : ZMod n) * (s : ZMod n) := by
            rw [hSdef]
            calc (z : ZMod n) + (r : ZMod n) * (d : ZMod n)
                = ((kk : ZMod n) * (invMod kk n : ZMod n)) *
                    ((z : ZMod n) + (r : ZMod n) * (d : ZMod n)) := by rw [hK, one_mul]
              _ = (kk : ZMod n) * ((invMod kk n : ZMod n) *
                    ((z : ZMod n) + (r : ZMod n) * (d : ZMod n))) := by ring
          push_cast
          rw [hU1, hU2]
          calc (z : ZMod n) * (w : ZMod n) + (r : ZMod n) * (w : ZMod n) * (d : ZMod n)
              = ((z : ZMod n) + (r : ZMod n) * (d : ZMod n)) * (w : ZMod n) := by ring
            _ = (kk : ZMod n) * ((s : ZMod n) * (w : ZMod n)) := by rw [hZRD]; ring
            _ = (kk : ZMod n) := by rw [hS, mul_one]
        have hmodeq : (u1 + u2 * d) % n = kk % n := by
          have := (ZMod.natCast_eq_natCast_iff _ _ _).mp hcast
          exact this
        -- the group identity: recomputed point equals the signing point
        have hpoint : u1 • P + u2 • (d • P) = kk • P := by
          have h1 : u2 • (d • P) = (u2 * d) • P := by
            rw [mul_comm u2 d, mul_nsmul]
          rw [h1, ← add_nsmul, ← nsmul_mod_addOrderOf G P n (u1 + u2 * d) hord, hmodeq,
            nsmul_mod_addOrderOf G P n kk hord]
        -- conclude
        rw [ecdsaVerify]
        dsimp only
        rw [if_neg (by omega)]
        simp only [← hw, ← hu1, ← hu2, hpoint]
        have hR0 : kk • P ≠ 0 := by
          intro hcontra
          have hdvd : addOrderOf P ∣ kk := addOrderOf_dvd_of_nsmul_eq_zero hcontra
          rw [hord] at hdvd
          rcases hdvd with ⟨c, hc⟩
          rcases c with _ | c
          · omega
          · nlinarith
        rw [if_neg hR0]
        simp [← hreq]

/-- Digest of a signing input, per §4.3: SHA-256 of the UTF-8 bytes of the
string, interpreted big-endian and reduced into the scalar field as noble's
hash-to-scalar conversion does. -/
def digestZ (n : Nat) (m : List Char) : Nat :=
  beNat (sha256Bytes (utf8Encode (m.map Char.toNat))) % n

/-- Modelled from the spec: deterministic nonce derivation (§4.3 recommends
RFC 6979, which noble implements). Abstracted to a fixed function of the
digest and the private scalar with values in `[1, n-1]`; only determinism
and the range are relied upon by any theorem below. -/
def nonceDet (n z d : Nat) : Nat := (z + d) % (n - 1) + 1

/-- Signing a message string: digest, deterministic nonce, ECDSA, compact
64-byte `r ‖ s` serialization with both halves left-padded to 32 bytes
(§4.3 `sign` and `toCompactRawBytes`). -/
def signStr (G : Type) [AddCommGroup G] (P : G) (xc : G → Nat) (n : Nat)
    (m : List Char) (d : Nat) : Except SigError (List Nat) :=
  match ecdsaSign G P xc n (digestZ n m) d (nonceDet n (digestZ n m) d) with
  | .ok (r, s) => .ok (toBytesBE 32 r ++ toBytesBE 32 s)
  | .error e => .error e

/-- Verifying a message string against a compact 64-byte signature (§4.3
`verify`): recompute the digest, split `r ‖ s`, run ECDSA verification;
returns `false` for a signature of the wrong length. -/
def verifyStr (G : Type) [AddCommGroup G] [DecidableEq G] (P : G) (xc : G → Nat)
    (n : Nat) (m : List Char) (sig : List Nat) (Q : G) : Bool :=
  if sig.length = 64 then
    ecdsaVerify G P xc n (digestZ n m) (beNat (sig.take 32), beNat (sig.drop 32)) Q
  else false

/-- C1: for every message string and every valid key pair over a group in
which the generator `P` has prime order `n` (as the P-256 group does, with
`Q = d • P` the public key derived from the private scalar `d`), verifying
the compact `r ‖ s` signature produced by signing the message over its
SHA-256 digest succeeds. -/
theorem claim_C1_sign_verify (G : Type) [AddCommGroup G] [DecidableEq G] (P : G)
    (xc : G → Nat) (n : Nat) (hp : n.Prime) (hord : addOrderOf P = n)
    (hn : n < 2 ^ 256) (m : List Char) (d : Nat) (sig : List Nat)
    (hsig : signStr G P xc n m d = .ok sig) :
    verifyStr G P xc n m sig (d • P) = true := by
  rw [signStr] at hsig
  rcases hres : ecdsaSign G P xc n (digestZ n m) d (nonceDet n (digestZ n m) d) with e | rs
  · rw [hres] at hsig
    exact absurd hsig (by simp)
  · obtain ⟨r, s⟩ := rs
    rw [hres] at hsig
    simp only [Except.ok.injEq] at hsig
    obtain ⟨-, hrn, -, hsn, -, -⟩ := ecdsaSign_ok_bounds G P xc n _ d _ r s hres
    have hlr : (toBytesBE 32 r).length = 32 := toBytesBE_length 32 r
    have hls : (toBytesBE 32 s).length = 32 := toBytesBE_length 32 s
    have h256 : (256 : ℕ) ^ 32 = 2 ^ 256 := by norm_num
    have hbr : beNat (toBytesBE 32 r) = r := beNat_toBytesBE 32 r (by omega)
    have hbs : beNat (toBytesBE 32 s) = s := beNat_toBytesBE 32 s (by omega)
    subst hsig
    rw [verifyStr, if_pos (by simp [hlr, hls])]
    have htake : (toBytesBE 32 r ++ toBytesBE 32 s).take 32 = toBytesBE 32 r :=
      List.take_left' hlr
    have hdrop : (toBytesBE 32 r ++ toBytesBE 32 s).drop 32 = toBytesBE 32 s :=
      List.drop_left' hlr
    rw [htake, hdrop, hbr, hbs]
    exact ecdsaVerify_sign G P xc n hp hord (digestZ n m) d _ r s hres

/-- Witness for C1: a concrete signing and verification run on the group
`ZMod 5` with generator 1 (prime order 5), message "ab", private scalar 3. -/
theorem claim_C1_sign_verify_witness :
    signStr (ZMod 5) 1 ZMod.val 5 ['a', 'b'] 3 = .ok (toBytesBE 32 4 ++ toBytesBE 32 4) ∧
    verifyStr (ZMod 5) 1 ZMod.val 5 ['a', 'b'] (toBytesBE 32 4 ++ toBytesBE 32 4)
      (3 • (1 : ZMod 5)) = true :=
  ⟨by decide,
   claim_C1_sign_verify (ZMod 5) 1 ZMod.val 5 (by decide) (ZMod.addOrderOf_one 5)
     (by decide) ['a', 'b'] 3 (toBytesBE 32 4 ++ toBytesBE 32 4) (by decide)⟩

/-- C2: signing fails with `InvalidScalar` whenever the private scalar is 0 or
at least the group order `n`: for every signing input and every such scalar,
the sign operation returns the error rather than a signature. -/
theorem claim_C2_invalid_scalar (G : Type) [AddCommGroup G] (P : G) (xc : G → Nat)
    (n : Nat) (m : List Char) (d : Nat) (hd : d = 0 ∨ n ≤ d) :
    signStr G P xc n m d = .error .InvalidScalar := by
  rw [signStr, ecdsaSign, if_pos hd]

/-- Witness for C2 at the zero scalar and at an over-range scalar. -/
theorem claim_C2_invalid_scalar_witness :
    signStr (ZMod 5) 1 ZMod.val 5 ['a', 'b'] 0 = .error .InvalidScalar ∧
    signStr (ZMod 5) 1 ZMod.val 5 ['a', 'b'] 7 = .error .InvalidScalar :=
  ⟨claim_C2_invalid_scalar (ZMod 5) 1 ZMod.val 5 ['a', 'b'] 0 (by decide),
   claim_C2_invalid_scalar (ZMod 5) 1 ZMod.val 5 ['a', 'b'] 7 (by decide)⟩

/-! ## JWT assembly -/

/-- Embeds `signJwt` (src/test.ts lines 49–70, duplicated at lines 150–175):
base64url-encode the serialized header and payload, join them with `.` into
the signing input, SHA-256 it, ECDSA-sign, and append the base64url-encoded
compact signature. The header and payload are taken as their JSON
serializations (`JSON.stringify` output); the error path models the throw
inside `p256.sign`. -/
def signJwt (G : Type) [AddCommGroup G] (P : G) (xc : G → Nat) (n : Nat)
    (header payload : List Char) (d : Nat) : Except SigError (List Char) :=
  let eh := base64urlEncode (utf8Encode (header.map Char.toNat))
  let ep := base64urlEncode (utf8Encode (payload.map Char.toNat))
  let si := eh ++ '.' :: ep
  match ecdsaSign G P xc n (digestZ n si) d (nonceDet n (digestZ n si) d) with
  | .ok (r, s) => .ok (si ++ '.' :: base64urlEncode (toBytesBE 32 r ++ toBytesBE 32 s))
  | .error e => .error e

theorem b64UrlChar_ne_dot (i : Nat) : b64UrlChar i ≠ '.' := by
  by_cases h : i < 64
  · revert i
    decide
  · rw [b64UrlChar, List.getD_eq_default]
    · decide
    · have : b64UrlAlphabet.length = 64 := by decide
      omega

theorem base64urlEncode_not_mem_dot (bs : List Nat) : '.' ∉ base64urlEncode bs := by
  rw [base64urlEncode]
  intro hmem
  rw [List.mem_map] at hmem
  obtain ⟨i, -, hi⟩ := hmem
  exact b64UrlChar_ne_dot i hi

theorem base64urlEncode_count_dot (bs : List Nat) :
    (base64urlEncode bs).count '.' = 0 :=
  List.count_eq_zero.mpr (base64urlEncode_not_mem_dot bs)

theorem b64Sextets_ne_nil (bs : List Nat) (h : bs ≠ []) : b64Sextets bs ≠ [] := by
  match bs, h with
  | a :: b :: c :: rest, _ => simp [b64Sextets]
  | [a, b], _ => simp [b64Sextets]
  | [a], _ => simp [b64Sextets]

theorem base64urlEncode_ne_nil (bs : List Nat) (h : bs ≠ []) :
    base64urlEncode bs ≠ [] := by
  rw [base64urlEncode]
  simp only [ne_eq, List.map_eq_nil_iff]
  exact b64Sextets_ne_nil bs h

theorem utf8Encode_ne_nil (cs : List Nat) (h : cs ≠ []) : utf8Encode cs ≠ [] := by
  match cs, h with
  | c :: rest, _ =>
    rw [utf8Encode]
    intro hcontra
    rw [List.append_eq_nil] at hcontra
    obtain ⟨h1, -⟩ := hcontra
    split at h1
    · simp at h1
    · split at h1
      · simp at h1
      · split at h1 <;> simp at h1

/-- C6: for every header, payload and private scalar for which signing
succeeds, the assembled JWT is
`base64url(header) ++ "." ++ base64url(payload) ++ "." ++ base64url(signature)`
with exactly two `.` separators and three non-empty segments, and the third
segment base64url-decodes to exactly 64 bytes: the 32-byte big-endian `r`
followed by the 32-byte big-endian `s`, with no ASN.1 wrapping. -/
theorem claim_C6_jwt_shape (G : Type) [AddCommGroup G] (P : G) (xc : G → Nat)
    (n : Nat) (header payload : List Char) (d : Nat) (jwt : List Char)
    (hh : header ≠ []) (hp : payload ≠ [])
    (hj : signJwt G P xc n header payload d = .ok jwt) :
    ∃ r s,
      jwt = base64urlEncode (utf8Encode (header.map Char.toNat)) ++ '.' ::
        (base64urlEncode (utf8Encode (payload.map Char.toNat)) ++ '.' ::
          base64urlEncode (toBytesBE 32 r ++ toBytesBE 32 s)) ∧
      jwt.count '.' = 2 ∧
      base64urlEncode (utf8Encode (header.map Char.toNat)) ≠ [] ∧
      base64urlEncode (utf8Encode (payload.map Char.toNat)) ≠ [] ∧
      base64urlEncode (toBytesBE 32 r ++ toBytesBE 32 s) ≠ [] ∧
      fromBase64Url (base64urlEncode (toBytesBE 32 r ++ toBytesBE 32 s)) =
        some (toBytesBE 32 r ++ toBytesBE 32 s) ∧
      (toBytesBE 32 r ++ toBytesBE 32 s).length = 64 := by
  rw [signJwt] at hj
  set eh := base64urlEncode (utf8Encode (header.map Char.toNat)) with heh
  set ep := base64urlEncode (utf8Encode (payload.map Char.toNat)) with hep
  rcases hres : ecdsaSign G P xc n (digestZ n (eh ++ '.' :: ep)) d
      (nonceDet n (digestZ n (eh ++ '.' :: ep)) d) with e | rs
  · rw [hres] at hj
    exact absurd hj (by simp)
  · obtain ⟨r, s⟩ := rs
    rw [hres] at hj
    simp only [Except.ok.injEq] at hj
    subst hj
    refine ⟨r, s, ?_, ?_, ?_, ?_, ?_, ?_, ?_⟩
    · simp
    · rw [List.count_append, List.count_cons, List.count_append, List.count_cons]
      rw [heh, hep, base64urlEncode_count_dot, base64urlEncode_count_dot,
        base64urlEncode_count_dot]
      simp
    · exact heh ▸ base64urlEncode_ne_nil _ (utf8Encode_ne_nil _ (by simpa using hh))
    · exact hep ▸ base64urlEncode_ne_nil _ (utf8Encode_ne_nil _ (by simpa using hp))
    · apply base64urlEncode_ne_nil
      have := toBytesBE_length 32 r
      intro hcontra
      have : (toBytesBE 32 r ++ toBytesBE 32 s).length = 0 := by rw [hcontra]; rfl
      simp [toBytesBE_length] at this
    · apply fromBase64Url_base64urlEncode
      intro x hx
      rcases List.mem_append.mp hx with h1 | h1
      · exact toBytesBE_lt 32 r x h1
      · exact toBytesBE_lt 32 s x h1
    · simp [toBytesBE_length]

set_option maxHeartbeats 1000000 in
/-- Witness for C6: a concrete JWT assembled on the toy group `ZMod 5`,
with signature pair (2, 4). -/
theorem claim_C6_jwt_shape_witness :
    signJwt (ZMod 5) 1 ZMod.val 5 ['h'] ['p'] 3 =
      .ok (base64urlEncode (utf8Encode (['h'].map Char.toNat)) ++ '.' ::
        (base64urlEncode (utf8Encode (['p'].map Char.toNat)) ++ '.' ::
          base64urlEncode (toBytesBE 32 2 ++ toBytesBE 32 4))) ∧
    (base64urlEncode (utf8Encode (['h'].map Char.toNat)) ++ '.' ::
      (base64urlEncode (utf8Encode (['p'].map Char.toNat)) ++ '.' ::
        base64urlEncode (toBytesBE 32 2 ++ toBytesBE 32 4))).count '.' = 2 := by
  have hsig : signJwt (ZMod 5) 1 ZMod.val 5 ['h'] ['p'] 3 =
      .ok (base64urlEncode (utf8Encode (['h'].map Char.toNat)) ++ '.' ::
        (base64urlEncode (utf8Encode (['p'].map Char.toNat)) ++ '.' ::
          base64urlEncode (toBytesBE 32 2 ++ toBytesBE 32 4))) := by decide
  obtain ⟨r, s, -, h2, -⟩ :=
    claim_C6_jwt_shape (ZMod 5) 1 ZMod.val 5 ['h'] ['p'] 3 _
      (by decide) (by decide) hsig
  exact ⟨hsig, h2⟩

/-- C9: signing is deterministic — the embedding of `signJwt` is a pure
function of the header, payload and private scalar (the nonce is derived
deterministically per RFC 6979; no randomness enters), so two invocations
with identical arguments return the identical JWT. -/
theorem claim_C9_deterministic (G : Type) [AddCommGroup G] (P : G) (xc : G → Nat)
    (n : Nat) (header payload : List Char) (d : Nat) (j1 j2 : Except SigError (List Char))
    (h1 : signJwt G P xc n header payload d = j1)
    (h2 : signJwt G P xc n header payload d = j2) : j1 = j2 :=
  h1.symm.trans h2

/-- Witness for C9: two invocations on concrete arguments agree. -/
theorem claim_C9_deterministic_witness :
    signJwt (ZMod 5) 1 ZMod.val 5 ['h'] ['p'] 3 =
      signJwt (ZMod 5) 1 ZMod.val 5 ['h'] ['p'] 3 :=
  claim_C9_deterministic (ZMod 5) 1 ZMod.val 5 ['h'] ['p'] 3 _ _ rfl rfl

/-! ## P-256 point codec -/

/-- P-256 field prime. -/
def pP256 : Nat := 0xffffffff00000001000000000000000000000000ffffffffffffffffffffffff

/-- P-256 curve coefficient a = p - 3. -/
def aP256 : Nat := pP256 - 3

/-- P-256 curve coefficient b. -/
def bP256 : Nat := 0x5ac635d8aa3a93e7b3ebbd55769886bc651d06b0cc53b0f63bce3c3e27d2604b

/-- P-256 base point x-coordinate. -/
def gxP256 : Nat := 0x6b17d1f2e12c4247f8bce6e563a440f277037d812deb33a0f4a13945d898c296

/-- P-256 base point y-coordinate. -/
def gyP256 : Nat := 0x4fe342e2fe1a7f9b8ee7eb4a7c0f9e162bce33576b315ececbb6406837bf51f5

/-- Affine curve-membership test for P-256. -/
def onCurve (x y : Nat) : Bool :=
  (y * y) % pP256 == (x * x * x + aP256 * x + bP256) % pP256

/-- Square root modulo the P-256 prime (which is 3 mod 4), by raising to the
power (p+1)/4; callers must check the square of the result. -/
def sqrtModP (c : Nat) : Nat := powMod c ((pP256 + 1) / 4) pP256

/-- Modelled from the spec: `p256.Point.fromHex` of `@noble/curves`, which is
not part of this repository. Parses 33-byte compressed point bytes (prefix
0x02/0x03; decompress by modular square root, then negate to match the prefix
parity) or 65-byte uncompressed bytes (prefix 0x04), validating field
membership and the curve equation; every other input fails. -/
def pointFromBytes (bs : List Nat) : Option (Nat × Nat) :=
  match bs with
  | h :: rest =>
    if bs.length = 33 then
      if h = 2 ∨ h = 3 then
        if beNat rest < pP256 then
          if (sqrtModP ((beNat rest * beNat rest * beNat rest + aP256 * beNat rest + bP256) % pP256) *
              sqrtModP ((beNat rest * beNat rest * beNat rest + aP256 * beNat rest + bP256) % pP256)) % pP256 =
              (beNat rest * beNat rest * beNat rest + aP256 * beNat rest + bP256) % pP256 then
            some (beNat rest,
              if sqrtModP ((beNat rest * beNat rest * beNat rest + aP256 * beNat rest + bP256) % pP256) % 2 = h % 2
              then sqrtModP ((beNat rest * beNat rest * beNat rest + aP256 * beNat rest + bP256) % pP256)
              else (pP256 - sqrtModP ((beNat rest * beNat rest * beNat rest + aP256 * beNat rest + bP256) % pP256)) % pP256)
          else none
        else none
      else none
    else if bs.length = 65 then
      if h = 4 then
        if beNat (rest.take 32) < pP256 ∧ beNat (rest.drop 32) < pP256 ∧
            onCurve (beNat (rest.take 32)) (beNat (rest.drop 32)) then
          some (beNat (rest.take 32), beNat (rest.drop 32))
        else none
      else none
    else none
  | [] => none

/-- EC public JWK as produced by the key conversion functions: the base64url
coordinate fields (the constant `kty`/`crv` fields carry no information). -/
structure EcJwkPub where
  x : List Char
  y : List Char
deriving DecidableEq, Repr

/-- Errors of the point codec, named as in the spec (§7). -/
inductive KeyError
| InvalidKeyLength
| InvalidPoint
deriving DecidableEq, Repr

/-- Embeds `publicKeyUint8ArrayToJwk` (src/key.ts lines 92–113, duplicated in
src/unnamed/part_000 lines 171–192): reject lengths other than 33 and 65,
parse with `Point.fromHex`, emit both coordinates as 32-byte big-endian
base64url fields. -/
def publicKeyUint8ArrayToJwk (bs : List Nat) : Except KeyError EcJwkPub :=
  if bs.length ≠ 33 ∧ bs.length ≠ 65 then .error .InvalidKeyLength
  else
    match pointFromBytes bs with
    | none => .error .InvalidPoint
    | some (x, y) =>
      .ok ⟨base64urlEncode (toBytesBE 32 x), base64urlEncode (toBytesBE 32 y)⟩

/-- Modelled from the spec: `point.toRawBytes(compressed)` of `@noble/curves`:
65-byte `0x04 ‖ x ‖ y`, or 33-byte `(0x02 + parity of y) ‖ x`. -/
def pointToRawBytes (x y : Nat) (compressed : Bool) : List Nat :=
  if compressed then (if y % 2 = 0 then 2 else 3) :: toBytesBE 32 x
  else 4 :: (toBytesBE 32 x ++ toBytesBE 32 y)

/-- Embeds `publicKeyJwkToUint8Array` (src/key.ts lines 121–132): decode the
coordinate fields, construct the affine point, `assertValidity` (field range
and curve equation), serialize in the requested form. `none` models the
thrown errors. The source decodes with the lenient `Base64.toUint8Array` of
js-base64; on valid base64url fields it agrees with `fromBase64Url`. -/
def publicKeyJwkToUint8Array (jwk : EcJwkPub) (compressed : Bool) : Option (List Nat) :=
  match fromBase64Url jwk.x, fromBase64Url jwk.y with
  | some xB, some yB =>
    if beNat xB < pP256 ∧ beNat yB < pP256 ∧ onCurve (beNat xB) (beNat yB) then
      some (pointToRawBytes (beNat xB) (beNat yB) compressed)
    else none
  | _, _ => none

/-- Embeds the second variant of `publicKeyJwkToUint8Array`
(src/unnamed/part_000 lines 200–219): assemble a 65-byte 0x04-prefixed buffer
from the decoded coordinates and parse it with `Point.fromHex`, then
serialize. -/
def publicKeyJwkToUint8ArrayFromHex (jwk : EcJwkPub) (compressed : Bool) : Option (List Nat) :=
  match fromBase64Url jwk.x, fromBase64Url jwk.y with
  | some xB, some yB =>
    match pointFromBytes (4 :: (xB ++ yB)) with
    | some (x, y) => some (pointToRawBytes x y compressed)
    | none => none
  | _, _ => none

theorem powMod_lt (b e m : Nat) (hm : 0 < m) : powMod b e m < m := by
  rw [powMod_eq]
  exact Nat.mod_lt _ hm

theorem pP256_pos : 0 < pP256 := by decide

theorem pP256_odd : pP256 % 2 = 1 := by decide

theorem pP256_lt : pP256 < 2 ^ 256 := by decide

theorem pointFromBytes_head_ne4 (bs : List Nat) (hlen : bs.length = 65)
    (hh : bs.headD 0 ≠ 4) : pointFromBytes bs = none := by
  match bs, hlen, hh with
  | h :: rest, hlen, hh =>
    simp only [List.length_cons] at hlen
    have h33 : ¬(h :: rest).length = 33 := by simp [List.length_cons]; omega
    have h65 : (h :: rest).length = 65 := by simp [List.length_cons]; omega
    rw [pointFromBytes, if_neg h33, if_pos h65, if_neg (by simpa using hh)]

/-- C7: converting a public point to a JWK fails with `InvalidKeyLength` for
every input whose length is neither 33 nor 65 bytes, and fails with
`InvalidPoint` for every 65-byte input whose prefix byte is not 0x04 or whose
bytes do not decode to a point on the P-256 curve. -/
theorem claim_C7_point_to_jwk_errors (bs : List Nat) :
    ((bs.length ≠ 33 ∧ bs.length ≠ 65) →
      publicKeyUint8ArrayToJwk bs = .error .InvalidKeyLength) ∧
    (bs.length = 65 → (bs.headD 0 ≠ 4 ∨ pointFromBytes bs = none) →
      publicKeyUint8ArrayToJwk bs = .error .InvalidPoint) := by
  constructor
  · intro h
    rw [publicKeyUint8ArrayToJwk, if_pos h]
  · intro hlen hbad
    have hnone : pointFromBytes bs = none := by
      rcases hbad with h | h
      · exact pointFromBytes_head_ne4 bs hlen h
      · exact h
    rw [publicKeyUint8ArrayToJwk, if_neg (by omega), hnone]

/-- Witness for C7: a 64-byte input is rejected as `InvalidKeyLength`, a
65-byte input with prefix 0x05 as `InvalidPoint`. -/
theorem claim_C7_point_to_jwk_errors_witness :
    publicKeyUint8ArrayToJwk (List.replicate 64 0) = .error .InvalidKeyLength ∧
    publicKeyUint8ArrayToJwk (5 :: List.replicate 64 0) = .error .InvalidPoint :=
  ⟨(claim_C7_point_to_jwk_errors (List.replicate 64 0)).1 (by decide),
   (claim_C7_point_to_jwk_errors (5 :: List.replicate 64 0)).2 (by decide)
     (Or.inl (by decide))⟩

/-- C8: the two implementation variants of JWK-to-public-key conversion — the
`Point` constructor with `assertValidity` (src/key.ts) and the 65-byte
`0x04`-buffer via `Point.fromHex` (src/unnamed/part_000) — return identical
bytes for every JWK whose coordinate fields decode to 32 bytes forming a
valid P-256 point, for either value of the compressed flag. -/
theorem claim_C8_jwk_variants_agree (jwk : EcJwkPub) (c : Bool) (xB yB : List Nat)
    (hx : fromBase64Url jwk.x = some xB) (hy : fromBase64Url jwk.y = some yB)
    (hlx : xB.length = 32) (hly : yB.length = 32)
    (hvalid : beNat xB < pP256 ∧ beNat yB < pP256 ∧ onCurve (beNat xB) (beNat yB) = true) :
    publicKeyJwkToUint8Array jwk c = publicKeyJwkToUint8ArrayFromHex jwk c ∧
    publicKeyJwkToUint8Array jwk c = some (pointToRawBytes (beNat xB) (beNat yB) c) := by
  have hA : publicKeyJwkToUint8Array jwk c = some (pointToRawBytes (beNat xB) (beNat yB) c) := by
    rw [publicKeyJwkToUint8Array, hx, hy]
    dsimp only
    rw [if_pos hvalid]
  have hB : publicKeyJwkToUint8ArrayFromHex jwk c =
      some (pointToRawBytes (beNat xB) (beNat yB) c) := by
    rw [publicKeyJwkToUint8ArrayFromHex, hx, hy]
    dsimp only
    have h33 : ¬(4 :: (xB ++ yB)).length = 33 := by
      simp [List.length_append, hlx, hly]
    have h65 : (4 :: (xB ++ yB)).length = 65 := by
      simp [List.length_append, hlx, hly]
    rw [pointFromBytes, if_neg h33, if_pos h65, if_pos rfl,
      List.take_left' hlx, List.drop_left' hlx, if_pos hvalid]
  exact ⟨hA.trans hB.symm, hA⟩

set_option maxHeartbeats 1000000 in
/-- Witness for C8 at the P-256 base point, compressed output. -/
theorem claim_C8_jwk_variants_agree_witness :
    publicKeyJwkToUint8Array
        (EcJwkPub.mk (base64urlEncode (toBytesBE 32 gxP256)) (base64urlEncode (toBytesBE 32 gyP256))) true =
      publicKeyJwkToUint8ArrayFromHex
        (EcJwkPub.mk (base64urlEncode (toBytesBE 32 gxP256)) (base64urlEncode (toBytesBE 32 gyP256))) true ∧
    publicKeyJwkToUint8Array
        (EcJwkPub.mk (base64urlEncode (toBytesBE 32 gxP256)) (base64urlEncode (toBytesBE 32 gyP256))) true =
      some (pointToRawBytes (beNat (toBytesBE 32 gxP256)) (beNat (toBytesBE 32 gyP256)) true) :=
  claim_C8_jwk_variants_agree
    (EcJwkPub.mk (base64urlEncode (toBytesBE 32 gxP256)) (base64urlEncode (toBytesBE 32 gyP256)))
    true (toBytesBE 32 gxP256) (toBytesBE 32 gyP256)
    (fromBase64Url_base64urlEncode _ (toBytesBE_lt 32 gxP256))
    (fromBase64Url_base64urlEncode _ (toBytesBE_lt 32 gyP256))
    (toBytesBE_length 32 gxP256) (toBytesBE_length 32 gyP256)
    (by refine ⟨?_, ?_, ?_⟩ <;> decide)

theorem sq_neg_mod (y0 : Nat) (h : y0 < pP256) :
    ((pP256 - y0) % pP256) * ((pP256 - y0) % pP256) % pP256 = y0 * y0 % pP256 := by
  have h1 : (pP256 - y0) % pP256 * ((pP256 - y0) % pP256) ≡
      (pP256 - y0) * (pP256 - y0) [MOD pP256] :=
    (Nat.mod_modEq _ _).mul (Nat.mod_modEq _ _)
  have h2 : (pP256 - y0) * (pP256 - y0) ≡ y0 * y0 [MOD pP256] := by
    rw [Nat.modEq_iff_dvd]
    refine ⟨2 * y0 - pP256, ?_⟩
    push_cast [Nat.cast_sub h.le]
    ring
  exact h1.trans h2

/-- C4: for every valid P-256 public point given as 33-byte compressed or
65-byte uncompressed bytes, converting to a JWK and back with the compressed
flag matching the original form returns exactly the original bytes. The
hypothesis that the decoded point has a nonzero y-coordinate excludes no
actual P-256 point: the group has odd prime order, so it contains no
2-torsion point; the embedding needs the hypothesis only because it cannot
rule out a root of the curve cubic. -/
theorem claim_C4_point_jwk_roundtrip (bs : List Nat) (pt : Nat × Nat) (jwk : EcJwkPub)
    (hbytes : ∀ b ∈ bs, b < 256)
    (hpt : pointFromBytes bs = some pt) (hy0 : pt.2 ≠ 0)
    (hjwk : publicKeyUint8ArrayToJwk bs = .ok jwk) :
    publicKeyJwkToUint8Array jwk (bs.length == 33) = some bs := by
  obtain ⟨px, py⟩ := pt
  have h256 : (256 : ℕ) ^ 32 = 2 ^ 256 := by norm_num
  have hplt : pP256 < 2 ^ 256 := pP256_lt
  match bs, hbytes, hpt, hjwk with
  | h :: rest, hbytes, hpt, hjwk =>
    by_cases h33 : (h :: rest).length = 33
    · -- compressed input
      have hrl : rest.length = 32 := by simpa using h33
      rw [publicKeyUint8ArrayToJwk, if_neg (by simp [h33]), hpt] at hjwk
      dsimp only at hjwk
      simp only [Except.ok.injEq] at hjwk
      subst hjwk
      rw [pointFromBytes, if_pos h33] at hpt
      set x := beNat rest with hxdef
      set rhs := (x * x * x + aP256 * x + bP256) % pP256 with hrhsdef
      set y0 := sqrtModP rhs with hy0def
      split at hpt
      · next h23 =>
        split at hpt
        · next hxlt =>
          split at hpt
          · next hcheck =>
            simp only [Option.some.injEq, Prod.mk.injEq] at hpt
            obtain ⟨hpx, hpy⟩ := hpt
            have hy0lt : y0 < pP256 := powMod_lt _ _ _ pP256_pos
            have hylt : py < pP256 := by
              rw [← hpy]
              split
              · exact hy0lt
              · exact Nat.mod_lt _ pP256_pos
            have honc : onCurve px py = true := by
              rw [onCurve, Nat.beq_eq_true_eq, ← hpx]
              rw [← hrhsdef, ← hpy]
              split
              · exact hcheck
              · rw [sq_neg_mod y0 hy0lt]
                exact hcheck
            have hxlt' : px < pP256 := hpx ▸ hxlt
            have hflag : ((h :: rest).length == 33) = true := by
              simp [h33]
            rw [hflag, publicKeyJwkToUint8Array,
              fromBase64Url_base64urlEncode _ (toBytesBE_lt 32 px),
              fromBase64Url_base64urlEncode _ (toBytesBE_lt 32 py)]
            dsimp only
            have hbx : beNat (toBytesBE 32 px) = px := beNat_toBytesBE 32 px (by omega)
            have hby : beNat (toBytesBE 32 py) = py := beNat_toBytesBE 32 py (by omega)
            rw [hbx, hby, if_pos ⟨hxlt', hylt, honc⟩]
            rw [pointToRawBytes, if_pos rfl]
            have hrest : toBytesBE 32 px = rest := by
              have hr := toBytesBE_beNat rest fun b hb => hbytes b (by simp [hb])
              rw [hrl, ← hxdef, hpx] at hr
              exact hr
            have hp2 : pP256 % 2 = 1 := pP256_odd
            have hyne : py ≠ 0 := hy0
            have hypar : py % 2 = h % 2 := by
              by_cases hpar : y0 % 2 = h % 2
              · rw [← hpy, if_pos hpar]
                exact hpar
              · have hy00 : y0 ≠ 0 := by
                  intro hz
                  rcases h23 with h2 | h3
                  · subst h2
                    rw [hz] at hpar
                    exact hpar rfl
                  · subst h3
                    have hzero : py = 0 := by
                      rw [← hpy, hz, if_neg (by omega)]
                      simp
                    exact hyne hzero
                rw [← hpy, if_neg hpar,
                  Nat.mod_eq_of_lt (show pP256 - y0 < pP256 by omega)]
                rcases h23 with h2 | h3
                · subst h2
                  omega
                · subst h3
                  omega
            have hhead : (if py % 2 = 0 then 2 else 3) = h := by
              rcases h23 with h2 | h3
              · subst h2
                rw [if_pos (by omega)]
              · subst h3
                rw [if_neg (by omega)]
            rw [hhead, hrest]
          · exact absurd hpt (by simp)
        · exact absurd hpt (by simp)
      · exact absurd hpt (by simp)
    · -- uncompressed input
      by_cases h65 : (h :: rest).length = 65
      · have hrl : rest.length = 64 := by simpa using h65
        rw [publicKeyUint8ArrayToJwk, if_neg (by simp [h65]), hpt] at hjwk
        dsimp only at hjwk
        simp only [Except.ok.injEq] at hjwk
        subst hjwk
        rw [pointFromBytes, if_neg h33, if_pos h65] at hpt
        split at hpt
        · next h4 =>
          subst h4
          split at hpt
          · next hvp =>
            simp only [Option.some.injEq, Prod.mk.injEq] at hpt
            obtain ⟨hpx, hpy⟩ := hpt
            obtain ⟨hxlt, hylt, honc⟩ := hvp
            rw [hpx] at hxlt honc
            rw [hpy] at hylt honc
            have hflag : ((4 :: rest).length == 33) = false := by
              simp [List.length_cons, hrl]
            rw [hflag, publicKeyJwkToUint8Array,
              fromBase64Url_base64urlEncode _ (toBytesBE_lt 32 px),
              fromBase64Url_base64urlEncode _ (toBytesBE_lt 32 py)]
            dsimp only
            have hbx : beNat (toBytesBE 32 px) = px := beNat_toBytesBE 32 px (by omega)
            have hby : beNat (toBytesBE 32 py) = py := beNat_toBytesBE 32 py (by omega)
            rw [hbx, hby]
            rw [if_pos ⟨hxlt, hylt, honc⟩]
            rw [pointToRawBytes, if_neg (by simp)]
            have htl : (rest.take 32).length = 32 := by
              rw [List.length_take]
              omega
            have hdl : (rest.drop 32).length = 32 := by
              rw [List.length_drop]
              omega
            have hxrest : toBytesBE 32 px = rest.take 32 := by
              have hr := toBytesBE_beNat (rest.take 32) fun b hb =>
                hbytes b (by simp [List.take_subset 32 rest hb])
              rw [htl, hpx] at hr
              exact hr
            have hyrest : toBytesBE 32 py = rest.drop 32 := by
              have hr := toBytesBE_beNat (rest.drop 32) fun b hb =>
                hbytes b (by simp [List.drop_subset 32 rest hb])
              rw [hdl, hpy] at hr
              exact hr
            rw [hxrest, hyrest, List.take_append_drop]
          · exact absurd hpt (by simp)
        · exact absurd hpt (by simp)
      · rw [pointFromBytes, if_neg h33, if_neg h65] at hpt
        exact absurd hpt (by simp)

set_option maxHeartbeats 1000000 in
/-- Witness for C4 at the uncompressed encoding of the P-256 base point. -/
theorem claim_C4_point_jwk_roundtrip_witness :
    publicKeyJwkToUint8Array
        (EcJwkPub.mk (base64urlEncode (toBytesBE 32 gxP256)) (base64urlEncode (toBytesBE 32 gyP256)))
        ((4 :: (toBytesBE 32 gxP256 ++ toBytesBE 32 gyP256)).length == 33) =
      some (4 :: (toBytesBE 32 gxP256 ++ toBytesBE 32 gyP256)) :=
  claim_C4_point_jwk_roundtrip (4 :: (toBytesBE 32 gxP256 ++ toBytesBE 32 gyP256))
    (gxP256, gyP256)
    (EcJwkPub.mk (base64urlEncode (toBytesBE 32 gxP256)) (base64urlEncode (toBytesBE 32 gyP256)))
    (by decide) (by decide) (by decide) (by decide)

end ES256
